import Mathlib

/-!
Verification development for the lesion image-analysis pipeline
(modules lifio, process, stats).

Conventions of the embedding:
* Python floats are modelled as rationals; all concrete inputs used in the
  theorems are exactly representable in binary floating point, so the
  rational arithmetic coincides with the float arithmetic of the source.
* numpy not-a-number results are modelled with Option (none = NaN).
* Python exceptions are modelled with Except String.
* Strings are handled as lists of characters; the three regular
  expressions of parse_series_name are implemented directly, following
  the greedy leftmost semantics of the re module.
-/

deriving instance DecidableEq for Except

/-- Numeric value of a list of decimal digit characters. -/
def digitsToNat (ds : List Char) : ℕ :=
  ds.foldl (fun acc c => 10 * acc + (c.toNat - '0'.toNat)) 0

/-- Python list indexing: nonnegative indices from the front, negative
indices wrap from the back, anything out of range is an IndexError. -/
def pyGet {α : Type _} (l : List α) (i : ℤ) : Option α :=
  if 0 ≤ i then l.get? i.toNat
  else if (-i).toNat ≤ l.length then l.get? (l.length - (-i).toNat)
  else none

/-- Python list item assignment, with the same index conventions. -/
def pySet {α : Type _} (l : List α) (i : ℤ) (a : α) : Option (List α) :=
  if 0 ≤ i then (if i.toNat < l.length then some (l.set i.toNat a) else none)
  else if (-i).toNat ≤ l.length ∧ 0 < (-i).toNat then
    some (l.set (l.length - (-i).toNat) a)
  else none

/-- Python str.find: index of the first occurrence, or -1 when absent. -/
def strFind (s : List Char) (c : Char) : ℤ :=
  if c ∈ s then (s.indexOf c : ℤ) else -1

/-- itertools.product over a list of index lists (leftmost factor varies
slowest), as used by _sanitize_czt. -/
def productL : List (List ℕ) → List (List ℕ)
  | [] => [[]]
  | l :: ls => l.flatMap (fun x => (productL ls).map (fun tup => x :: tup))

/-- itertools.product of two lists, as used for the statistics columns. -/
def listProd {α β : Type _} (ps : List α) (qs : List β) : List (α × β) :=
  ps.flatMap (fun p => qs.map (fun q => (p, q)))

/-- Structural map with failure over Option (the effect of mapping a
possibly failing operation over a list, first failure wins). -/
def mapMo {α β : Type _} (f : α → Option β) : List α → Option (List β)
  | [] => some []
  | a :: l =>
    match f a, mapMo f l with
    | some b, some bs => some (b :: bs)
    | _, _ => none

/-- Structural map with failure over Except (first raised exception
propagates, as in a Python loop). -/
def mapME {ε α β : Type _} (f : α → Except ε β) : List α → Except ε (List β)
  | [] => .ok []
  | a :: l =>
    match f a with
    | .error e => .error e
    | .ok b =>
      match mapME f l with
      | .error e => .error e
      | .ok bs => .ok (b :: bs)

/-- numpy mean of a list of rationals (meaningful only for nonempty input;
callers guard the empty case). -/
def meanQ (l : List ℚ) : ℚ := l.sum / (l.length : ℚ)

/-- numpy clip of a scalar into the interval from lo to hi: the maximum
with lo is applied first, then the minimum with hi. -/
def clipQ (lo hi x : ℚ) : ℚ := min hi (max lo x)

/-- numpy unique: the ascending list of distinct values (the set of
values of the input, sorted). -/
def uniqueQ (l : List ℚ) : List ℚ := (l.dedup).insertionSort (· ≤ ·)

/-- The index list of numpy unique with return_index=True: for each
distinct value (in ascending value order) the index of its first
occurrence in the input. -/
def uniqueIdx (l : List ℚ) : List ℕ := (uniqueQ l).map (fun u => l.indexOf u)

/-- Executable floor of a rational (the Int.floor of Mathlib does not
reduce in the kernel). -/
def floorQ (q : ℚ) : ℤ := q.num / (q.den : ℤ)

/-- Executable ceiling of a rational. -/
def ceilQ (q : ℚ) : ℤ := -floorQ (-q)

/-- numpy arange for a positive step: the values start + i * step for
i below the ceiling of (stop - start) / step; the stop value itself is
excluded (half-open interval). -/
def arangeQ (start stop step : ℚ) : List ℚ :=
  (List.range (ceilQ ((stop - start) / step)).toNat).map
    (fun i : ℕ => start + (i : ℚ) * step)

/-!  The series-name parser of lifio.parse_series_name.

The source matches, in order, the anchored patterns
  re_pre  = Pre.*/Pos(\d+)_.*
  re_mark = Mark.*/Pos(\d+)_.*
  re_time = (\d+(\.\d+)?)h? to (\d+(\.\d+)?)h.*/Pos(\d+)_.*
with re.match (anchored at the start only).  The functions below
implement exactly these patterns; the greedy dot-star before /Pos picks
the last viable occurrence, and the dot never crosses a newline. -/

/-- Match of the subpattern /Pos(\d+)_ at position i of s, returning the
captured digit group as a number. -/
def posMatchAt (s : List Char) (i : ℕ) : Option ℕ :=
  let rest := s.drop i
  if rest.take 4 = ['/', 'P', 'o', 's'] then
    let ds := (rest.drop 4).takeWhile Char.isDigit
    if ds ≠ [] ∧ (rest.drop (4 + ds.length)).head? = some '_' then
      some (digitsToNat ds)
    else none
  else none

/-- Greedy .*/Pos(\d+)_ starting at index start: the dot-star spans no
newline and, being greedy, selects the last viable /Pos occurrence. -/
def lastPosMatch (s : List Char) (start : ℕ) : Option ℕ :=
  let limit := start + ((s.drop start).takeWhile (fun c => c ≠ '\n')).length
  (((List.range (limit + 1)).filterMap
      (fun i => if start ≤ i then (posMatchAt s i).map (fun d => (i, d)) else none)).getLast?).map
    (fun p => p.2)

/-- re.match of Pre.*/Pos(\d+)_.* returning the captured position. -/
def matchPre (s : List Char) : Option ℕ :=
  if s.take 3 = ['P', 'r', 'e'] then lastPosMatch s 3 else none

/-- re.match of Mark.*/Pos(\d+)_.* returning the captured position. -/
def matchMark (s : List Char) : Option ℕ :=
  if s.take 4 = ['M', 'a', 'r', 'k'] then lastPosMatch s 4 else none

/-- A decimal numeral captured by the subpattern (\d+(\.\d+)?): integer
part, fraction digits and fraction length, all as naturals. -/
structure DecNum where
  intPart : ℕ
  fracPart : ℕ
  fracLen : ℕ
deriving DecidableEq, Repr

/-- The rational value of a captured decimal numeral (the float() call of
the source, modelled exactly). -/
def qVal (d : DecNum) : ℚ := (d.intPart : ℚ) + (d.fracPart : ℚ) / (10 : ℚ) ^ d.fracLen

/-- The number subpattern (\d+(\.\d+)?): captured numeral and number of
characters consumed.  The digit runs are maximal, as the greedy engine
produces. -/
def numMatch (s : List Char) : Option (DecNum × ℕ) :=
  let ds := s.takeWhile Char.isDigit
  if ds = [] then none
  else
    match s.drop ds.length with
    | '.' :: r2 =>
      let fs := r2.takeWhile Char.isDigit
      if fs = [] then some (⟨digitsToNat ds, 0, 0⟩, ds.length)
      else some (⟨digitsToNat ds, digitsToNat fs, fs.length⟩,
                 ds.length + 1 + fs.length)
    | _ => some (⟨digitsToNat ds, 0, 0⟩, ds.length)

/-- re.match of (\d+(\.\d+)?)h? to (\d+(\.\d+)?)h.*/Pos(\d+)_.*
returning the two captured numerals and the captured position, at the
level of naturals. -/
def matchTimeN (s : List Char) : Option (DecNum × DecNum × ℕ) :=
  match numMatch s with
  | none => none
  | some (t0, n1) =>
    let n1h := if (s.drop n1).head? = some 'h' then n1 + 1 else n1
    if (s.drop n1h).take 4 = [' ', 't', 'o', ' '] then
      match numMatch (s.drop (n1h + 4)) with
      | none => none
      | some (t1, n2) =>
        if (s.drop (n1h + 4 + n2)).head? = some 'h' then
          (lastPosMatch s (n1h + 4 + n2 + 1)).map (fun e => (t0, t1, e))
        else none
    else none

/-- The time pattern with the numerals evaluated: start hour and end hour
as rationals, plus the captured position. -/
def matchTime (s : List Char) : Option (ℚ × ℚ × ℕ) :=
  (matchTimeN s).map (fun r => (qVal r.1, qVal r.2.1, r.2.2))

/-- lifio.parse_series_name: position and timepoint list from a series
name; the time branch builds numpy arange(t0, t1 + interval/2, interval). -/
def parse_series_name (name : List Char) (interval : ℚ) : Except String (ℕ × List ℚ) :=
  match matchPre name with
  | some e => .ok (e, [-1])
  | none =>
    match matchMark name with
    | some e => .ok (e, [-2])
    | none =>
      match matchTime name with
      | some (t0, t1, e) => .ok (e, arangeQ t0 (t1 + interval / 2) interval)
      | none => .error "ValueError: Could not parse name string"

/-!  process._times and the statistics-table allocation of
process.traces_dict (steps before the per-series loop). -/

/-- The fixed statistic names of process.all_stat_names. -/
def all_stat_names : List String := ["min_max", "slope", "missing"]

/-- process._times: parse every name, take the first timepoint of each
series, keep the first-occurrence representative of every distinct start
time (numpy unique with return_index), and return the sorted distinct
union of the representatives' timepoint lists.  The error cases model the
unpacking failure on an empty name list and the indexing failure on an
empty timepoint list. -/
def timesF (parsed : List (ℕ × List ℚ)) : Except String (List ℚ) :=
  if parsed = [] then .error "ValueError: need more than 0 values to unpack"
  else
    match mapMo List.head? (parsed.map (fun pt => pt.2)) with
    | none => .error "IndexError: index 0 is out of bounds"
    | some starts =>
      .ok (uniqueQ ((uniqueIdx starts).map
            (fun i => (parsed.map (fun pt => pt.2)).getD i [])).flatten)

/-- The allocated statistics table of traces_dict: row index, column list
and initial cell contents. -/
structure StatTable where
  rows : List ℚ
  cols : List (ℕ × String)
  cell : ℕ → ℕ → Option ℚ

/-- The metadata-and-allocation prefix of process.traces_dict: parse all
series names (default interval 1/2), compute the row index via _times,
and build the column list itertools.product(positions, all_stat_names)
where positions has one entry per series.  Every cell starts as
np.empty times np.nan, that is, not-a-number. -/
def tracesDictInit (names : List (List Char)) : Except String StatTable := do
  let parsed ← mapME (fun n => parse_series_name n (1/2)) names
  let allTimes ← timesF parsed
  .ok ⟨allTimes, listProd (parsed.map (fun pt => pt.1)) all_stat_names,
       fun _ _ => none⟩

/-!  stats.slope.  numpy argmin and argmax return the index of the first
occurrence of the extremum; they are embedded by that documented
semantics.  The optional Gaussian smoothing of the source is an external
scipy collaborator, taken as a function parameter. -/

/-- Index of the first occurrence of the minimum (numpy argmin); 0 on the
empty list, which numpy rejects. -/
def argminL (l : List ℚ) : ℕ :=
  match l with
  | [] => 0
  | [_] => 0
  | x :: y :: rest =>
    let j := argminL (y :: rest)
    if (y :: rest).getD j 0 < x then j + 1 else 0

/-- Index of the first occurrence of the maximum (numpy argmax). -/
def argmaxL (l : List ℚ) : ℕ :=
  match l with
  | [] => 0
  | [_] => 0
  | x :: y :: rest =>
    let j := argmaxL (y :: rest)
    if x < (y :: rest).getD j 0 then j + 1 else 0

/-- The body of stats.slope after the optional smoothing: with m the
argmin and M the argmax, abs((tr[m] - tr[M]) / (m - M)).  When m = M the
numpy quotient 0.0 / 0 is not-a-number (with only a runtime warning), so
the result is modelled as none; no exception is raised. -/
def slopeCore (tr : List ℚ) : Option ℚ :=
  let m := argminL tr
  let M := argmaxL tr
  if m = M then none
  else some |(tr.getD m 0 - tr.getD M 0) / ((m : ℚ) - (M : ℚ))|

/-- stats.slope with the scipy Gaussian filter as an external
collaborator: smoothing happens first when a sigma is supplied.  (The
source name slope is taken by Mathlib, hence the suffix.) -/
def slopeStat (smooth : Option (List ℚ → List ℚ)) (tr : List ℚ) : Option ℚ :=
  slopeCore (match smooth with | none => tr | some g => g tr)

/-!  stats.missing_fluorescence (sigma absent; the Gaussian branch is the
same external collaborator as in slope). -/

/-- The Python slice tr[-m:]: the last min(length, m) elements for
positive m, the whole list for m = 0. -/
def lastSlice (l : List ℚ) (m : ℕ) : List ℚ :=
  if m = 0 then l else l.drop (l.length - min l.length m)

/-- stats.missing_fluorescence with sigma absent: estimate the height
from the two margin windows when it is not supplied, clip the trace into
[0, height] and sum the deficit.  none models the not-a-number produced
by the mean of an empty array (and the degenerate margins = 0 case,
where numpy fails to broadcast the two windows). -/
def missing_fluorescence (tr : List ℚ) (height : Option ℚ) (margins : ℕ) : Option ℚ :=
  match height with
  | some hh => some ((tr.map (fun x => hh - clipQ 0 hh x)).sum)
  | none =>
    if tr = [] ∨ margins = 0 then none
    else
      let hh := meanQ (List.zipWith (fun a b => a + b) (tr.take margins) (lastSlice tr margins)) / 2
      some ((tr.map (fun x => hh - clipQ 0 hh x)).sum)

/-- The spec formula for the estimated height, stated with the two
disjoint margin windows: mean of the elementwise sum of the first
margins samples and the last margins samples, halved. -/
def spec_height (tr : List ℚ) (margins : ℕ) : ℚ :=
  meanQ (List.zipWith (fun a b => a + b) (tr.take margins)
          (tr.drop (tr.length - margins))) / 2

/-- The spec formula for missing fluorescence with estimated height:
sum(height - clip(trace, 0, height)). -/
def spec_missing (tr : List ℚ) (margins : ℕ) : ℚ :=
  (tr.map (fun x => spec_height tr margins - clipQ 0 (spec_height tr margins) x)).sum

/-!  The z-collapse of process.traces_dict: images.sum(axis=1,
dtype=np.uint16), modelled pixelwise on flattened planes.  The uint16
accumulator reduces every addition modulo 2 to the 16. -/

/-- Elementwise uint16 addition of two planes. -/
def addWrap16 (a b : List ℕ) : List ℕ :=
  List.zipWith (fun x y => (x + y) % 65536) a b

/-- The z-collapse as coded: sum of the z planes accumulated in uint16. -/
def sumZ_uint16 (planes : List (List ℕ)) (width : ℕ) : List ℕ :=
  planes.foldl addWrap16 (List.replicate width 0)

/-- The exact mathematical z-sum, for comparison. -/
def sumZ_exact (planes : List (List ℕ)) (width : ℕ) : List ℕ :=
  planes.foldl (fun a b => List.zipWith (fun x y => x + y) a b) (List.replicate width 0)

/-!  lifio._get_ordering and the axis selection of lifio._sanitize_czt. -/

/-- lifio._get_ordering: for every tag of desired, str.find of that tag
in actual (-1 when the tag is absent; the first index when present, also
under duplicates).  No validation is performed and nothing is raised. -/
def get_ordering (actual desired : List Char) : List ℤ :=
  desired.map (fun c => strFind actual c)

/-- Reordering a list of axis data by an ordering, with Python indexing
(new[i] = old[ordering[i]], negative entries wrapping from the back):
the list comprehension applying a transposition in read_image_series. -/
def applyOrd {α : Type _} (data : List α) (ord : List ℤ) : Option (List α) :=
  mapMo (fun i => pyGet data i) ord

/-- The c, z or t argument of _sanitize_czt: None, a bare index, or an
iterable of indices. -/
inductive Selector where
  | all : Selector
  | single : ℕ → Selector
  | coll : List ℕ → Selector
deriving DecidableEq, Repr

/-- One iteration of the loop of _sanitize_czt for one axis label: None
stores the full range of the native size; a bare index is wrapped into a
one-element list; an iterable is NOT stored (the isinstance branch only
assigns for non-iterables), so the subsequent len(out[label]) lookup
raises KeyError for iterable selectors. -/
def sanitizeStep (out : List (Char × List ℕ)) (shape : List ℕ)
    (dim : Selector) (label : Char) (order : List Char) :
    Except String (List (Char × List ℕ) × List ℕ) :=
  let dimIdx := strFind order label
  match dim with
  | .all =>
    match pyGet shape dimIdx with
    | none => .error "IndexError: shape"
    | some sz => .ok (out ++ [(label, List.range sz)], shape)
  | .single i =>
    let out2 := out ++ [(label, [i])]
    match pySet shape dimIdx 1 with
    | none => .error "IndexError: shape"
    | some sh => .ok (out2, sh)
  | .coll _ =>
    match List.lookup label out with
    | none => .error ("KeyError: ".push label)
    | some v =>
      match pySet shape dimIdx v.length with
      | none => .error "IndexError: shape"
      | some sh => .ok (out, sh)

/-- lifio._sanitize_czt: normalize the c, z, t selectors, update the
shape in place, and build the itertools.product list of (c, z, t)
triples nested in the relative order of the C, Z, T axes in the file
order. -/
def sanitize_czt (c z t : Selector) (shape : List ℕ) (order : List Char) :
    Except String (List (ℕ × ℕ × ℕ) × List ℕ) := do
  let (out, shape1) ← sanitizeStep [] shape c 'C' order
  let (out, shape2) ← sanitizeStep out shape1 z 'Z' order
  let (out, shape3) ← sanitizeStep out shape2 t 'T' order
  let cztOrder := order.filter (fun ch => ch = 'C' ∨ ch = 'Z' ∨ ch = 'T')
  let ords := get_ordering cztOrder ['C', 'Z', 'T']
  let ci := ords.getD 0 0
  let zi := ords.getD 1 0
  let ti := ords.getD 2 0
  let ls ← mapME (fun ch =>
    match List.lookup ch out with
    | some v => Except.ok v
    | none => Except.error ("KeyError: ".push ch)) cztOrder
  let cztList ← mapME (fun tup =>
    match pyGet tup ci, pyGet tup zi, pyGet tup ti with
    | some a, some b, some cc => Except.ok ((a, b, cc) : ℕ × ℕ × ℕ)
    | _, _, _ => Except.error "IndexError: tuple") (productL ls)
  .ok (cztList, shape3)

/-!  The session lifecycle of lifio: the module flags VM_STARTED and
VM_KILLED, the operations start and done, and the guard shared by
metadata and image_reader (start the session when the started flag is
unset, then raise RuntimeError when the killed flag is set). -/

/-- The module state: the two global flags. -/
structure VMState where
  started : Bool
  killed : Bool
deriving DecidableEq, Repr

/-- lifio.start: sets VM_STARTED. -/
def vmStart (s : VMState) : VMState := { s with started := true }

/-- lifio.done: sets VM_KILLED (VM_STARTED is left unchanged). -/
def vmDone (s : VMState) : VMState := { s with killed := true }

/-- Result of one metadata or image_reader call: the state afterwards,
whether the call invoked start, and whether it raised the RuntimeError
of the killed guard. -/
structure CallResult where
  state : VMState
  startInvoked : Bool
  raised : Bool
deriving DecidableEq, Repr

/-- lifio.metadata, reduced to its session logic: if not VM_STARTED then
start(); then if VM_KILLED raise RuntimeError. -/
def metadataOp (s : VMState) : CallResult :=
  let s1 := if s.started = false then vmStart s else s
  let inv := s.started = false
  if s1.killed then ⟨s1, inv, true⟩ else ⟨s1, inv, false⟩

/-- lifio.image_reader, whose session guard is identical to metadata. -/
def imageReaderOp (s : VMState) : CallResult :=
  let s1 := if s.started = false then vmStart s else s
  let inv := s.started = false
  if s1.killed then ⟨s1, inv, true⟩ else ⟨s1, inv, false⟩

/-- The session operations a caller can issue. -/
inductive SessionOp where
  | start : SessionOp
  | done : SessionOp
  | metadata : SessionOp
  | imageRead : SessionOp
deriving DecidableEq, Repr

/-- One step: the state afterwards, whether lifio.start ran during the
step, and whether the step raised the killed-session RuntimeError. -/
def stepOp (s : VMState) : SessionOp → VMState × Bool × Bool
  | .start => (vmStart s, true, false)
  | .done => (vmDone s, false, false)
  | .metadata => ((metadataOp s).state, (metadataOp s).startInvoked, (metadataOp s).raised)
  | .imageRead => ((imageReaderOp s).state, (imageReaderOp s).startInvoked, (imageReaderOp s).raised)

/-- The trace of a sequence of session operations: for every step, the
operation, the state before it, whether start ran, whether it raised. -/
def runTrace (s : VMState) : List SessionOp → List (SessionOp × VMState × Bool × Bool)
  | [] => []
  | op :: ops =>
    let r := stepOp s op
    (op, s, r.2.1, r.2.2) :: runTrace r.1 ops

/-!  Helper lemmas. -/

theorem floorQ_eq (q : ℚ) : floorQ q = ⌊q⌋ := (Rat.floor_def).symm

theorem ceilQ_eq (q : ℚ) : ceilQ q = ⌈q⌉ := by
  rw [ceilQ, floorQ_eq, Int.floor_neg, neg_neg]

theorem mapMo_eq_some_map {α β : Type _} (f : α → Option β) (g : α → β) :
    ∀ l : List α, (∀ a ∈ l, f a = some (g a)) → mapMo f l = some (l.map g)
  | [], _ => rfl
  | a :: l, h => by
    have ha := h a (List.mem_cons_self a l)
    have hl := mapMo_eq_some_map f g l (fun x hx => h x (List.mem_cons_of_mem a hx))
    simp [mapMo, ha, hl]

theorem pyGet_of_nonneg {α : Type _} [Inhabited α] (data : List α) (i : ℕ)
    (h : i < data.length) : pyGet data (i : ℤ) = some (data.getD i default) := by
  simp [pyGet, List.getD_eq_getElem?_getD, List.getElem?_eq_getElem h]

theorem numMatch_head_digit (s : List Char) (x : DecNum × ℕ)
    (h : numMatch s = some x) : ∃ c s2, s = c :: s2 ∧ c.isDigit = true := by
  cases s with
  | nil => simp [numMatch] at h
  | cons c s2 =>
    by_cases hc : c.isDigit
    · exact ⟨c, s2, rfl, hc⟩
    · simp [numMatch, List.takeWhile_cons, hc] at h

theorem matchTimeN_numMatch (s : List Char) (r : DecNum × DecNum × ℕ)
    (h : matchTimeN s = some r) : ∃ x, numMatch s = some x := by
  rw [matchTimeN] at h
  cases hn : numMatch s with
  | none => rw [hn] at h; exact absurd h (by simp)
  | some x => exact ⟨x, rfl⟩

theorem matchPre_none_of_digit (c : Char) (s2 : List Char)
    (hc : c.isDigit = true) : matchPre (c :: s2) = none := by
  rw [matchPre, if_neg]
  intro heq
  rw [List.take_succ_cons] at heq
  have : c = 'P' := (List.cons.injEq _ _ _ _).mp heq |>.1
  subst this
  exact absurd hc (by decide)

theorem matchMark_none_of_digit (c : Char) (s2 : List Char)
    (hc : c.isDigit = true) : matchMark (c :: s2) = none := by
  rw [matchMark, if_neg]
  intro heq
  rw [List.take_succ_cons] at heq
  have : c = 'M' := (List.cons.injEq _ _ _ _).mp heq |>.1
  subst this
  exact absurd hc (by decide)

theorem matchPre_none_of_mark (s : List Char) (e : ℕ)
    (h : matchMark s = some e) : matchPre s = none := by
  have hs : s.take 4 = ['M', 'a', 'r', 'k'] := by
    by_contra hne
    rw [matchMark, if_neg hne] at h
    exact absurd h (by simp)
  cases s with
  | nil => simp at hs
  | cons c s2 =>
    rw [List.take_succ_cons] at hs
    have : c = 'M' := (List.cons.injEq _ _ _ _).mp hs |>.1
    subst this
    rw [matchPre, if_neg]
    intro heq
    cases s2 with
    | nil => simp at heq
    | cons d s3 =>
      rw [List.take_succ_cons, List.take_succ_cons] at heq
      exact absurd ((List.cons.injEq _ _ _ _).mp heq).1 (by decide)

theorem parse_time_eq (name : List Char) (a b : DecNum) (e : ℕ)
    (interval : ℚ) (hm : matchTimeN name = some (a, b, e)) :
    parse_series_name name interval =
      .ok (e, arangeQ (qVal a) (qVal b + interval / 2) interval) := by
  obtain ⟨x, hx⟩ := matchTimeN_numMatch name _ hm
  obtain ⟨c, s2, rfl, hc⟩ := numMatch_head_digit name x hx
  rw [parse_series_name, matchPre_none_of_digit c s2 hc,
      matchMark_none_of_digit c s2 hc]
  simp [matchTime, hm]

theorem parse_mark_eq (name : List Char) (e : ℕ) (interval : ℚ)
    (hm : matchMark name = some e) :
    parse_series_name name interval = .ok (e, [-2]) := by
  rw [parse_series_name, matchPre_none_of_mark name e hm, hm]

theorem arangeQ_mem (start stop step : ℚ) (hstep : 0 < step) (v : ℚ) :
    v ∈ arangeQ start stop step ↔
      ∃ k : ℕ, v = start + (k : ℚ) * step ∧ v < stop := by
  unfold arangeQ
  constructor
  · intro hv
    obtain ⟨i, hir, hfe⟩ :
        ∃ i : ℕ, i ∈ List.range (ceilQ ((stop - start) / step)).toNat ∧
          start + (i : ℚ) * step = v := List.mem_map.mp hv
    have hi : i < (ceilQ ((stop - start) / step)).toNat := List.mem_range.mp hir
    refine ⟨i, hfe.symm, ?_⟩
    have h1 : (i : ℤ) < ⌈(stop - start) / step⌉ := by
      rw [← ceilQ_eq]
      exact Int.lt_toNat.mp hi
    have h2 : (i : ℚ) < (stop - start) / step := by exact_mod_cast Int.lt_ceil.mp h1
    have h3 : (i : ℚ) * step < stop - start := (lt_div_iff₀ hstep).mp h2
    rw [← hfe]
    linarith
  · rintro ⟨k, rfl, hlt⟩
    refine List.mem_map.mpr ⟨k, List.mem_range.mpr ?_, rfl⟩
    have h3 : (k : ℚ) * step < stop - start := by linarith
    have h2 : (k : ℚ) < (stop - start) / step := (lt_div_iff₀ hstep).mpr h3
    have h1 : (k : ℤ) < ⌈(stop - start) / step⌉ := Int.lt_ceil.mpr (by exact_mod_cast h2)
    rw [ceilQ_eq]
    exact Int.lt_toNat.mpr h1

theorem arangeQ_eval (start stop step : ℚ) (n : ℕ)
    (h : ⌈(stop - start) / step⌉ = (n : ℤ)) :
    arangeQ start stop step =
      (List.range n).map (fun i : ℕ => start + (i : ℚ) * step) := by
  unfold arangeQ
  rw [ceilQ_eq, h, Int.toNat_natCast]

/-- Claim C1, amended: for every series name matching the time-range
pattern and every positive interval, parse_series_name returns the
parsed position digits together with the arithmetic sequence of the
values start + k * interval that satisfy the strict half-step test
value < end + interval/2 (not the claimed non-strict test); end itself
is still included whenever end - start is an exact nonnegative multiple
of interval. -/
theorem c1_time_parse_amended (name : List Char) (a b : DecNum) (e : ℕ)
    (interval : ℚ) (hm : matchTimeN name = some (a, b, e)) (hpos : 0 < interval) :
    parse_series_name name interval =
      .ok (e, arangeQ (qVal a) (qVal b + interval / 2) interval) ∧
    (∀ v : ℚ, v ∈ arangeQ (qVal a) (qVal b + interval / 2) interval ↔
      ∃ k : ℕ, v = qVal a + (k : ℚ) * interval ∧ v < qVal b + interval / 2) ∧
    (∀ m : ℕ, qVal b = qVal a + (m : ℚ) * interval →
      qVal b ∈ arangeQ (qVal a) (qVal b + interval / 2) interval) := by
  refine ⟨parse_time_eq name a b e interval hm, ?_, ?_⟩
  · intro v
    exact arangeQ_mem (qVal a) (qVal b + interval / 2) interval hpos v
  · intro m hmul
    rw [arangeQ_mem (qVal a) (qVal b + interval / 2) interval hpos]
    exact ⟨m, hmul, by linarith⟩

/-- Witness for C1 at the spec example: parsing
"22.5h to 41h pSCI/Pos013_S001" with interval 1/2 yields position 13 and
the arange sequence, and the endpoint 41 = 22.5 + 37 * 0.5 is a member. -/
theorem c1_time_parse_amended_witness :
    parse_series_name "22.5h to 41h pSCI/Pos013_S001".toList (1/2) =
      .ok (13, arangeQ (qVal ⟨22, 5, 1⟩) (qVal ⟨41, 0, 0⟩ + (1/2) / 2) (1/2)) ∧
    qVal ⟨41, 0, 0⟩ ∈ arangeQ (qVal ⟨22, 5, 1⟩) (qVal ⟨41, 0, 0⟩ + (1/2) / 2) (1/2) := by
  have h := c1_time_parse_amended "22.5h to 41h pSCI/Pos013_S001".toList
    ⟨22, 5, 1⟩ ⟨41, 0, 0⟩ 13 (1/2) (by decide) (by norm_num)
  exact ⟨h.1, h.2.2 37 (by norm_num [qVal])⟩

/-- Counterexample for C1 as stated: for "0h to 0.75h x/Pos001_S001"
with interval 1/2 the code returns the sequence [0, 1/2], yet the value
0 + 2 * (1/2) = 1 satisfies the claimed inclusive membership test
value <= end + interval/2 = 3/4 + 1/4 and is not in the sequence. -/
theorem c1_counterexample :
    parse_series_name "0h to 0.75h x/Pos001_S001".toList (1/2) = .ok (1, [0, 1/2]) ∧
    ((0 : ℚ) + 2 * (1/2) ≤ 3/4 + (1/2) / 2) ∧
    ((0 : ℚ) + 2 * (1/2)) ∉ [(0 : ℚ), 1/2] := by
  refine ⟨?_, by norm_num, by norm_num⟩
  have h := parse_time_eq "0h to 0.75h x/Pos001_S001".toList
    ⟨0, 0, 0⟩ ⟨0, 75, 2⟩ 1 (1/2) (by decide)
  rw [h]
  have e1 : (qVal ⟨0, 75, 2⟩ + (1/2) / 2 - qVal ⟨0, 0, 0⟩) / (1/2) = ((2 : ℤ) : ℚ) := by
    norm_num [qVal]
  have e2 := arangeQ_eval (qVal ⟨0, 0, 0⟩) (qVal ⟨0, 75, 2⟩ + (1/2) / 2) (1/2) 2
    (by rw [e1, Int.ceil_intCast]; norm_num)
  rw [e2]
  norm_num [qVal, List.range_succ]

/-- Claim C3: the z-collapse images.sum(axis=1, dtype=np.uint16) keeps a
uint16 accumulator, so a column of two valid uint16 pixels of value
40000 sums to 14464 = 80000 mod 65536 instead of the exact 80000: the
sum does silently truncate. -/
theorem c3_zsum_truncates :
    (40000 < 65536 ∧ sumZ_uint16 [[40000], [40000]] 1 = [14464]) ∧
    sumZ_exact [[40000], [40000]] 1 = [80000] ∧
    (14464 : ℕ) ≠ 80000 ∧ 65535 < 80000 := by
  decide

/-- Claim C4: _sanitize_czt fails with a KeyError for an iterable
selector (the isinstance branch never stores out[label], so
len(out[label]) raises), although its docstring accepts a list of int;
a bare index and None behave as documented (the shown shape shrinks the
C axis to 1 and the czt triples are the full product). -/
theorem c4_coll_selector_keyerror :
    sanitize_czt (.coll [0, 1]) .all .all [4, 4, 2, 2, 2] "XYCZT".toList
      = .error "KeyError: C" ∧
    sanitize_czt (.single 1) .all .all [4, 4, 3, 2, 2] "XYCZT".toList
      = .ok ([(1, 0, 0), (1, 0, 1), (1, 1, 0), (1, 1, 1)], [4, 4, 1, 2, 2]) := by
  decide

/-- Counterexample for C6 as stated: on tag sets {A,B} and {A,C} (a tag
of one order absent from the other) _get_ordering raises nothing and
returns [0, -1], an index list containing -1. -/
theorem c6_counterexample :
    get_ordering ['A', 'B'] ['A', 'C'] = [0, -1] := by decide

/-- Claim C6, amended: _get_ordering performs no validation and raises
no ConfigurationError; each entry is str.find of the desired tag in
actual, namely the first index of the tag (a valid index j with
actual[j] equal to the tag) when the tag occurs in actual, and -1 when
it does not. -/
theorem c6_get_ordering_amended (actual desired : List Char) :
    (get_ordering actual desired).length = desired.length ∧
    ∀ i : ℕ, ∀ hi : i < desired.length,
      (desired.get ⟨i, hi⟩ ∈ actual →
        (get_ordering actual desired).getD i (-2)
            = (actual.indexOf (desired.get ⟨i, hi⟩) : ℤ) ∧
        actual.indexOf (desired.get ⟨i, hi⟩) < actual.length ∧
        actual.getD (actual.indexOf (desired.get ⟨i, hi⟩)) ' ' = desired.get ⟨i, hi⟩) ∧
      (desired.get ⟨i, hi⟩ ∉ actual →
        (get_ordering actual desired).getD i (-2) = -1) := by
  refine ⟨by simp [get_ordering], ?_⟩
  intro i hi
  have hg : (get_ordering actual desired).getD i (-2)
      = strFind actual (desired.get ⟨i, hi⟩) := by
    simp [get_ordering, List.getD_eq_getElem?_getD, List.getElem?_map,
          List.getElem?_eq_getElem hi]
  constructor
  · intro hmem
    have hidx : actual.indexOf (desired.get ⟨i, hi⟩) < actual.length :=
      List.indexOf_lt_length.mpr hmem
    refine ⟨by rw [hg, strFind, if_pos hmem], hidx, ?_⟩
    rw [List.getD_eq_getElem?_getD, List.getElem?_eq_getElem hidx]
    simp [List.getElem_indexOf hidx]
  · intro hmem
    rw [hg, strFind, if_neg hmem]

/-- Witness for C6: in actual = XY, desired = YZ, the tag Y maps to
index 1 and the absent tag Z maps to -1. -/
theorem c6_get_ordering_amended_witness :
    (get_ordering ['X', 'Y'] ['Y', 'Z']).getD 0 (-2) = 1 ∧
    (get_ordering ['X', 'Y'] ['Y', 'Z']).getD 1 (-2) = -1 := by
  have h := c6_get_ordering_amended ['X', 'Y'] ['Y', 'Z']
  constructor
  · have h0 := ((h.2 0 (by norm_num)).1 (by decide)).1
    rw [h0]; decide
  · exact (h.2 1 (by norm_num)).2 (by decide)

/-!  Session-trace lemmas for claim C9. -/

theorem stepOp_killed_mono (s : VMState) (op : SessionOp)
    (h : s.killed = true) : (stepOp s op).1.killed = true := by
  obtain ⟨st, ki⟩ := s
  cases h
  cases st <;> cases op <;> rfl

theorem stepOp_started_mono (s : VMState) (op : SessionOp)
    (h : s.started = true) : (stepOp s op).1.started = true := by
  obtain ⟨st, ki⟩ := s
  cases h
  cases ki <;> cases op <;> rfl

theorem runTrace_state_mono (s : VMState) (ops : List SessionOp)
    (hk : s.killed = true) :
    ∀ e ∈ runTrace s ops, e.2.1.killed = true ∧
      (s.started = true → e.2.1.started = true) := by
  induction ops generalizing s with
  | nil => intro e he; exact absurd he (by simp [runTrace])
  | cons op ops ih =>
    intro e he
    rw [runTrace] at he
    rcases List.mem_cons.mp he with h | h
    · subst h; exact ⟨hk, fun h2 => h2⟩
    · have ih2 := ih (stepOp s op).1 (stepOp_killed_mono s op hk) e h
      exact ⟨ih2.1, fun h2 => ih2.2 (stepOp_started_mono s op h2)⟩

theorem runTrace_consistent (s : VMState) (ops : List SessionOp) :
    ∀ e ∈ runTrace s ops,
      e.2.2.1 = (stepOp e.2.1 e.1).2.1 ∧ e.2.2.2 = (stepOp e.2.1 e.1).2.2 := by
  induction ops generalizing s with
  | nil => intro e he; exact absurd he (by simp [runTrace])
  | cons op ops ih =>
    intro e he
    rw [runTrace] at he
    rcases List.mem_cons.mp he with h | h
    · subst h; exact ⟨rfl, rfl⟩
    · exact ih (stepOp s op).1 e h

theorem stepOp_killed_guard (s : VMState) (op : SessionOp)
    (hk : s.killed = true)
    (hop : op = SessionOp.metadata ∨ op = SessionOp.imageRead) :
    (stepOp s op).2.2 = true ∧ (s.started = true → (stepOp s op).2.1 = false) := by
  obtain ⟨st, ki⟩ := s
  cases hk
  rcases hop with h | h <;> subst h <;> cases st <;>
    exact ⟨rfl, fun h2 => by first | rfl | exact absurd h2 (by decide)⟩

/-- Claim C9, amended: in every operation sequence issued from a state
whose killed flag is set (in particular right after a done), every
subsequent metadata or image-read call raises the killed-session
RuntimeError; provided the session had been started before the
shutdown, none of those calls invokes start.  When the session was
never started, however, such a call first invokes start and only then
raises (see the counterexample). -/
theorem c9_shutdown_amended (s : VMState) (hk : s.killed = true)
    (ops : List SessionOp) (e : SessionOp × VMState × Bool × Bool)
    (he : e ∈ runTrace s ops)
    (hop : e.1 = SessionOp.metadata ∨ e.1 = SessionOp.imageRead) :
    e.2.2.2 = true ∧ (s.started = true → e.2.2.1 = false) := by
  have hmono := runTrace_state_mono s ops hk e he
  have hcons := runTrace_consistent s ops e he
  have hguard := stepOp_killed_guard e.2.1 e.1 hmono.1 hop
  exact ⟨hcons.2.trans hguard.1,
    fun h2 => hcons.1.trans (hguard.2 (hmono.2 h2))⟩

/-- Witness for C9: from the started-and-killed state, a metadata call
raises and does not invoke start. -/
theorem c9_shutdown_amended_witness :
    (SessionOp.metadata, (⟨true, true⟩ : VMState), false, true).2.2.2 = true ∧
    ((⟨true, true⟩ : VMState).started = true →
      (SessionOp.metadata, (⟨true, true⟩ : VMState), false, true).2.2.1 = false) :=
  c9_shutdown_amended ⟨true, true⟩ rfl [SessionOp.metadata] _ (by decide) (Or.inl rfl)

/-- Counterexample for C9 as stated: issuing done before any start and
then metadata reaches the metadata call with the killed flag set, yet
the call invokes start (third component true) before raising (fourth
component true): an implicit restart attempt after shutdown. -/
theorem c9_counterexample :
    runTrace ⟨false, false⟩ [SessionOp.done, SessionOp.metadata] =
      [(SessionOp.done, ⟨false, false⟩, false, false),
       (SessionOp.metadata, ⟨false, true⟩, true, true)] := by decide

/-!  Round trip of the axis permutations (claim C8). -/

theorem applyOrd_get_ordering {α : Type _} [Inhabited α]
    (A B : List Char) (data : List α)
    (hsub : ∀ ch ∈ B, ch ∈ A) (hlen : data.length = A.length) :
    applyOrd data (get_ordering A B)
      = some (B.map (fun ch => data.getD (A.indexOf ch) default)) := by
  unfold applyOrd get_ordering
  rw [mapMo_eq_some_map (fun i => pyGet data i)
        (fun j : ℤ => data.getD j.toNat default)
        (B.map (fun c => strFind A c)) ?_]
  · rw [List.map_map]
    refine congrArg some (List.map_congr_left ?_)
    intro ch hch
    have hmem : ch ∈ A := hsub ch hch
    simp [Function.comp, strFind, if_pos hmem]
  · intro j hj
    obtain ⟨ch, hch, rfl⟩ := List.mem_map.mp hj
    have hmem : ch ∈ A := hsub ch hch
    have hidx : A.indexOf ch < A.length := List.indexOf_lt_length.mpr hmem
    rw [strFind, if_pos hmem]
    have := pyGet_of_nonneg data (A.indexOf ch) (hlen ▸ hidx)
    simpa using this

/-- Claim C8: for axis orders A and B that are duplicate-free
permutations of the same tag set, reordering any data list first by
permutation(A, B) and then by permutation(B, A) returns the data
unchanged. -/
theorem c8_permutation_roundtrip {α : Type _} [Inhabited α]
    (A B : List Char) (hA : A.Nodup) (hB : B.Nodup)
    (hAB : ∀ ch ∈ A, ch ∈ B) (hBA : ∀ ch ∈ B, ch ∈ A)
    (data : List α) (hd : data.length = A.length) :
    (applyOrd data (get_ordering A B)).bind
      (fun mid => applyOrd mid (get_ordering B A)) = some data := by
  rw [applyOrd_get_ordering A B data hBA hd]
  rw [Option.some_bind]
  set f : Char → α := fun ch => data.getD (A.indexOf ch) default with hf
  have hmidlen : (B.map f).length = B.length := by simp
  rw [applyOrd_get_ordering B A (B.map f) hAB hmidlen]
  refine congrArg some ?_
  have hmap : ∀ ch ∈ A, (B.map f).getD (B.indexOf ch) default = f ch := by
    intro ch hch
    have hmem : ch ∈ B := hAB ch hch
    have hidx : B.indexOf ch < B.length := List.indexOf_lt_length.mpr hmem
    rw [List.getD_eq_getElem?_getD, List.getElem?_eq_getElem (by simpa using hidx)]
    simp [List.getElem_indexOf hidx]
  refine List.ext_getElem (by simp [hd.symm]) ?_
  intro i h1 h2
  have hiA : i < A.length := by simpa using h1
  rw [List.getElem_map]
  rw [hmap _ (A.getElem_mem hiA)]
  rw [hf]
  simp only []
  rw [List.indexOf_getElem hA i hiA]
  rw [List.getD_eq_getElem?_getD, List.getElem?_eq_getElem h2]
  rfl

/-- Witness for C8 at the axis orders of the source: XYCZT and TZYXC. -/
theorem c8_permutation_roundtrip_witness :
    (applyOrd [10, 20, 30, 40, 50]
        (get_ordering "XYCZT".toList "TZYXC".toList)).bind
      (fun mid => applyOrd mid (get_ordering "TZYXC".toList "XYCZT".toList))
      = some [10, 20, 30, 40, 50] :=
  c8_permutation_roundtrip "XYCZT".toList "TZYXC".toList
    (by decide) (by decide) (by decide) (by decide) [10, 20, 30, 40, 50] (by decide)

/-!  argmin and argmax lemmas for claim C5. -/

theorem argminL_lt_length : ∀ l : List ℚ, l ≠ [] → argminL l < l.length
  | [_], _ => by simp [argminL]
  | x :: y :: rest, _ => by
    have ih := argminL_lt_length (y :: rest) (by simp)
    simp only [argminL]
    split
    · simpa using Nat.succ_lt_succ ih
    · simp

theorem argmaxL_lt_length : ∀ l : List ℚ, l ≠ [] → argmaxL l < l.length
  | [_], _ => by simp [argmaxL]
  | x :: y :: rest, _ => by
    have ih := argmaxL_lt_length (y :: rest) (by simp)
    simp only [argmaxL]
    split
    · simpa using Nat.succ_lt_succ ih
    · simp

theorem argminL_getD_le : ∀ l : List ℚ, ∀ x ∈ l, l.getD (argminL l) 0 ≤ x
  | [], x, hx => absurd hx (List.not_mem_nil x)
  | [a], x, hx => by
    rw [List.mem_singleton] at hx
    subst hx
    simp [argminL]
  | a :: b :: rest, x, hx => by
    have ih := argminL_getD_le (b :: rest)
    simp only [argminL]
    split
    case isTrue h =>
      rw [List.getD_cons_succ]
      rcases List.mem_cons.mp hx with rfl | hx2
      · exact le_of_lt h
      · exact ih x hx2
    case isFalse h =>
      rw [List.getD_cons_zero]
      rcases List.mem_cons.mp hx with rfl | hx2
      · exact le_refl x
      · exact le_trans (not_lt.mp h) (ih x hx2)

theorem le_argmaxL_getD : ∀ l : List ℚ, ∀ x ∈ l, x ≤ l.getD (argmaxL l) 0
  | [], x, hx => absurd hx (List.not_mem_nil x)
  | [a], x, hx => by
    rw [List.mem_singleton] at hx
    subst hx
    simp [argmaxL]
  | a :: b :: rest, x, hx => by
    have ih := le_argmaxL_getD (b :: rest)
    simp only [argmaxL]
    split
    case isTrue h =>
      rw [List.getD_cons_succ]
      rcases List.mem_cons.mp hx with rfl | hx2
      · exact le_of_lt h
      · exact ih x hx2
    case isFalse h =>
      rw [List.getD_cons_zero]
      rcases List.mem_cons.mp hx with rfl | hx2
      · exact le_refl x
      · exact le_trans (ih x hx2) (not_lt.mp h)

theorem getD_mem_of_lt_length (l : List ℚ) (j : ℕ) (h : j < l.length) :
    l.getD j 0 ∈ l := by
  rw [List.getD_eq_getElem?_getD, List.getElem?_eq_getElem h]
  exact List.getElem_mem h

theorem argmin_eq_argmax_iff (l : List ℚ) (hne : l ≠ []) :
    argminL l = argmaxL l ↔ ∀ a ∈ l, ∀ b ∈ l, a = b := by
  constructor
  · intro h a ha b hb
    have h1 : l.getD (argminL l) 0 ≤ a := argminL_getD_le l a ha
    have h2 : a ≤ l.getD (argmaxL l) 0 := le_argmaxL_getD l a ha
    have h3 : l.getD (argminL l) 0 ≤ b := argminL_getD_le l b hb
    have h4 : b ≤ l.getD (argmaxL l) 0 := le_argmaxL_getD l b hb
    rw [← h] at h2 h4
    have ha2 : a = l.getD (argminL l) 0 := le_antisymm h2 h1
    have hb2 : b = l.getD (argminL l) 0 := le_antisymm h4 h3
    rw [ha2, hb2]
  · intro hconst
    match l with
    | [_] => rfl
    | a :: b :: rest =>
      have hlen : argminL (b :: rest) < (b :: rest).length :=
        argminL_lt_length (b :: rest) (by simp)
      have hlen2 : argmaxL (b :: rest) < (b :: rest).length :=
        argmaxL_lt_length (b :: rest) (by simp)
      have hv1 : (b :: rest).getD (argminL (b :: rest)) 0 = a := by
        refine hconst _ (List.mem_cons_of_mem a (getD_mem_of_lt_length _ _ hlen)) a
          (List.mem_cons_self a _)
      have hv2 : (b :: rest).getD (argmaxL (b :: rest)) 0 = a := by
        refine hconst _ (List.mem_cons_of_mem a (getD_mem_of_lt_length _ _ hlen2)) a
          (List.mem_cons_self a _)
      simp only [argminL, argmaxL, hv1, hv2, lt_irrefl, if_false]

/-- Claim C5, amended: slope (without smoothing; the Gaussian branch is
an external collaborator applied beforehand) silently yields the
not-a-number quotient 0.0/0 (modelled none) exactly when the first
argmin index equals the first argmax index, and that happens exactly
when the trace is constant, which is possible at every length (not only
length 1); for every non-constant trace the call returns a finite
value. -/
theorem c5_slope_amended (tr : List ℚ) (hne : tr ≠ []) :
    (slopeCore tr = none ↔ ∀ a ∈ tr, ∀ b ∈ tr, a = b) ∧
    (argminL tr = argmaxL tr ↔ ∀ a ∈ tr, ∀ b ∈ tr, a = b) := by
  have hiff := argmin_eq_argmax_iff tr hne
  refine ⟨?_, hiff⟩
  rw [← hiff]
  unfold slopeCore
  constructor
  · intro h
    by_contra hne2
    rw [if_neg hne2] at h
    exact absurd h (by simp)
  · intro h
    rw [if_pos h]

/-- Counterexample for C5 as stated: the constant trace [3, 3] has
length 2, yet its argmin and argmax coincide and slope yields the
silent not-a-number (none), so m = M is not confined to length-1
traces (nor does a ValueError-style exception occur). -/
theorem c5_counterexample :
    ([3, 3] : List ℚ).length = 2 ∧
    argminL [3, 3] = argmaxL [3, 3] ∧
    slopeCore [3, 3] = none := by
  refine ⟨by simp, ?_, ?_⟩
  · norm_num [argminL, argmaxL]
  · norm_num [slopeCore, argminL, argmaxL]

/-- Witness for C5: the non-constant trace [3, 4] does not produce the
not-a-number outcome. -/
theorem c5_slope_amended_witness : slopeCore [3, 4] ≠ none := by
  have h := (c5_slope_amended [3, 4] (by simp)).1
  intro hn
  have := h.mp hn 3 (by simp) 4 (by simp)
  norm_num at this

/-!  Margin windows of missing_fluorescence (claim C7). -/

/-- Claim C7, amended: the two margin windows trace[:margins] and
trace[-margins:] always have the same length min(length, margins) for
positive margins, so the elementwise sum never fails and
missing_fluorescence never raises for a nonempty trace: for traces
shorter than 2*margins it silently computes with overlapping windows
instead of failing; only for traces of length at least 2*margins are
the windows disjoint and the result equals the spec formula
sum(height - clip(trace, 0, height)) with
height = mean(trace[:margins] + trace[-margins:]) / 2. -/
theorem c7_missing_fluorescence_amended (tr : List ℚ) (margins : ℕ)
    (hm : 1 ≤ margins) (hne : tr ≠ []) :
    (tr.take margins).length = (lastSlice tr margins).length ∧
    (missing_fluorescence tr none margins).isSome = true ∧
    (2 * margins ≤ tr.length →
      lastSlice tr margins = tr.drop (tr.length - margins) ∧
      missing_fluorescence tr none margins = some (spec_missing tr margins)) := by
  have hm0 : margins ≠ 0 := by omega
  have hlast : lastSlice tr margins = tr.drop (tr.length - min tr.length margins) := by
    rw [lastSlice, if_neg hm0]
  refine ⟨?_, ?_, ?_⟩
  · rw [hlast, List.length_take, List.length_drop]
    omega
  · rw [missing_fluorescence, if_neg (by simp [hne, hm0])]
    rfl
  · intro h2m
    have hmin : min tr.length margins = margins := by omega
    constructor
    · rw [hlast, hmin]
    · rw [missing_fluorescence, if_neg (by simp [hne, hm0])]
      rw [hlast, hmin, spec_missing, spec_height]

/-- Counterexample for C7 as stated: the trace [1, 3] is shorter than
2 * 50, yet missing_fluorescence returns the ordinary value 1 (windows
fully overlapping, height = mean([1,3]+[1,3])/2 = 2), raising nothing. -/
theorem c7_counterexample :
    ([1, 3] : List ℚ).length < 2 * 50 ∧
    missing_fluorescence [1, 3] none 50 = some 1 := by
  refine ⟨by simp, ?_⟩
  rw [missing_fluorescence, if_neg (by simp)]
  have h1 : lastSlice [1, 3] 50 = ([1, 3] : List ℚ) := by
    rw [lastSlice, if_neg (by norm_num)]
    norm_num
  rw [h1]
  norm_num [meanQ, clipQ, List.zipWith, List.take]

/-- Witness for C7 at trace [1, 2, 3] with margins 1 (length 3 at least
2 * 1): equal window lengths, a defined result, disjoint windows and
the spec formula. -/
theorem c7_missing_fluorescence_amended_witness :
    (([1, 2, 3] : List ℚ).take 1).length = (lastSlice [1, 2, 3] 1).length ∧
    (missing_fluorescence [1, 2, 3] none 1).isSome = true ∧
    (lastSlice [1, 2, 3] 1
        = ([1, 2, 3] : List ℚ).drop (([1, 2, 3] : List ℚ).length - 1) ∧
      missing_fluorescence [1, 2, 3] none 1 = some (spec_missing [1, 2, 3] 1)) := by
  have h := c7_missing_fluorescence_amended [1, 2, 3] 1 (by norm_num) (by simp)
  exact ⟨h.1, h.2.1, h.2.2 (by simp)⟩

/-!  numpy-unique lemmas, and claim C10. -/

theorem uniqueQ_nodup (l : List ℚ) : (uniqueQ l).Nodup :=
  ((List.perm_insertionSort (· ≤ ·) l.dedup).nodup_iff).mpr (List.nodup_dedup l)

theorem uniqueQ_mem (l : List ℚ) (u : ℚ) : u ∈ uniqueQ l ↔ u ∈ l := by
  rw [uniqueQ]
  rw [(List.perm_insertionSort (· ≤ ·) l.dedup).mem_iff]
  exact List.mem_dedup

theorem uniqueQ_sorted (l : List ℚ) : (uniqueQ l).Sorted (· ≤ ·) :=
  List.sorted_insertionSort (· ≤ ·) l.dedup

/-- Claim C10: a series name matching the Mark pattern parses to the
finite sentinel -2 (never not-a-number) as the single timepoint, for
every interval; consequently all Mark series share the start time -2,
and the numpy-unique-by-first-occurrence index list of the start times
contains exactly one index holding the value -2, so the
dedup-by-start-time rule of _times keeps exactly one representative
among the Mark series. -/
theorem c10_mark_sentinel (name : List Char) (e : ℕ)
    (hm : matchMark name = some e) (interval : ℚ)
    (starts : List ℚ) (hs : -2 ∈ starts) :
    parse_series_name name interval = .ok (e, [-2]) ∧
    (uniqueIdx starts).countP (fun i => decide (starts.getD i 0 = -2)) = 1 := by
  refine ⟨parse_mark_eq name e interval hm, ?_⟩
  rw [uniqueIdx, List.countP_map]
  have hcongr : ∀ u ∈ uniqueQ starts,
      (((fun i => decide (starts.getD i 0 = -2)) ∘ fun u => starts.indexOf u) u = true
        ↔ (u == -2) = true) := by
    intro u hu
    have humem : u ∈ starts := (uniqueQ_mem starts u).mp hu
    have hidx : starts.indexOf u < starts.length := List.indexOf_lt_length.mpr humem
    have hval : starts.getD (starts.indexOf u) 0 = u := by
      rw [List.getD_eq_getElem?_getD, List.getElem?_eq_getElem hidx]
      simp [List.getElem_indexOf hidx]
    show decide (starts.getD (starts.indexOf u) 0 = -2) = true ↔ (u == -2) = true
    rw [hval]
    by_cases hu2 : u = -2 <;> simp [hu2]
  rw [List.countP_congr hcongr]
  have : (uniqueQ starts).countP (fun u => u == -2) = (uniqueQ starts).count (-2) := by
    rw [List.count]
  rw [this]
  exact List.count_eq_one_of_mem (uniqueQ_nodup starts)
    ((uniqueQ_mem starts (-2)).mpr hs)

/-- Witness for C10 at the spec example name and start times coming from
a file with two Mark series and one other series. -/
theorem c10_mark_sentinel_witness :
    parse_series_name "Mark_and_Find_001/Pos019_S001".toList (1/2) = .ok (19, [-2]) ∧
    (uniqueIdx [-2, 5, -2]).countP
      (fun i => decide (([-2, 5, -2] : List ℚ).getD i 0 = -2)) = 1 :=
  c10_mark_sentinel "Mark_and_Find_001/Pos019_S001".toList 19 (by decide) (1/2)
    [-2, 5, -2] (by norm_num)

/-!  Statistics-table allocation lemmas (claim C2). -/

theorem exbind_ok {ε α β : Type _} (a : α) (f : α → Except ε β) :
    (Except.ok (ε := ε) a >>= f) = f a := rfl

theorem exbind_error {ε α β : Type _} (e : ε) (f : α → Except ε β) :
    ((Except.error e : Except ε α) >>= f) = .error e := rfl

theorem parse_pre_eq (name : List Char) (e : ℕ) (interval : ℚ)
    (hm : matchPre name = some e) :
    parse_series_name name interval = .ok (e, [-1]) := by
  rw [parse_series_name, hm]

theorem mapME_ok_length {ε α β : Type _} (f : α → Except ε β) :
    ∀ l : List α, ∀ l2 : List β, mapME f l = .ok l2 → l2.length = l.length
  | [], l2, h => by
    simp only [mapME] at h
    cases h
    rfl
  | a :: l, l2, h => by
    simp only [mapME] at h
    cases hfa : f a with
    | error e => rw [hfa] at h; exact absurd h (by simp)
    | ok b =>
      rw [hfa] at h
      cases hrec : mapME f l with
      | error e => rw [hrec] at h; exact absurd h (by simp)
      | ok bs =>
        rw [hrec] at h
        cases h
        simp [mapME_ok_length f l bs hrec]

theorem listProd_length {α β : Type _} (ps : List α) (qs : List β) :
    (listProd ps qs).length = ps.length * qs.length := by
  induction ps with
  | nil => simp [listProd]
  | cons p ps ih =>
    simp only [listProd, List.flatMap_cons, List.length_append, List.length_map] at ih ⊢
    rw [ih, List.length_cons]
    ring

theorem listProd_mem {α β : Type _} (ps : List α) (qs : List β) (x : α × β) :
    x ∈ listProd ps qs ↔ x.1 ∈ ps ∧ x.2 ∈ qs := by
  obtain ⟨x1, x2⟩ := x
  simp only [listProd, List.mem_flatMap, List.mem_map]
  constructor
  · rintro ⟨a, ha, b, hb, heq⟩
    obtain ⟨rfl, rfl⟩ := Prod.mk.injEq .. ▸ And.intro (congrArg Prod.fst heq) (congrArg Prod.snd heq)
    exact ⟨ha, hb⟩
  · rintro ⟨h1, h2⟩
    exact ⟨x1, h1, x2, h2, rfl⟩

theorem listProd_toFinset {α β : Type _} [DecidableEq α] [DecidableEq β]
    (ps : List α) (qs : List β) :
    (listProd ps qs).toFinset = ps.toFinset ×ˢ qs.toFinset := by
  ext x
  simp [List.mem_toFinset, listProd_mem, Finset.mem_product]

theorem timesF_ok_uniqueQ (parsed : List (ℕ × List ℚ)) (rows : List ℚ)
    (h : timesF parsed = .ok rows) : ∃ l, rows = uniqueQ l := by
  rw [timesF] at h
  split at h
  · exact absurd h (by simp)
  · cases hmo : mapMo List.head? (parsed.map fun pt => pt.2) with
    | none => rw [hmo] at h; exact absurd h (by simp)
    | some starts =>
      rw [hmo] at h
      injection h with h2
      exact ⟨_, h2.symm⟩

/-- Claim C2, amended: the allocated statistics table has column list
itertools.product(positions, all_stat_names) where positions carries
one entry per series (so series-count times 3 columns; a position that
appears in several series yields duplicated column labels, not a
deduplicated cartesian product); as a set the columns are exactly
distinct-positions times the three statistic names; the row index is
the timepoint set of _times (ascending and duplicate-free, one
representative per distinct start time); every cell starts as
not-a-number. -/
theorem c2_table_amended (names : List (List Char)) (parsed : List (ℕ × List ℚ))
    (hp : mapME (fun n => parse_series_name n (1/2)) names = .ok parsed)
    (t : StatTable) (ht : tracesDictInit names = .ok t) :
    t.cols = listProd (parsed.map (fun pt => pt.1)) all_stat_names ∧
    t.cols.length = 3 * names.length ∧
    t.cols.toFinset = (parsed.map (fun pt => pt.1)).toFinset ×ˢ all_stat_names.toFinset ∧
    timesF parsed = .ok t.rows ∧
    t.rows.Sorted (· ≤ ·) ∧ t.rows.Nodup ∧
    (∀ i j, t.cell i j = none) := by
  unfold tracesDictInit at ht
  rw [hp, exbind_ok] at ht
  cases htf : timesF parsed with
  | error e => rw [htf, exbind_error] at ht; exact absurd ht (by simp)
  | ok rows =>
    rw [htf, exbind_ok] at ht
    injection ht with ht2
    subst ht2
    obtain ⟨l, rfl⟩ := timesF_ok_uniqueQ parsed rows htf
    refine ⟨rfl, ?_, listProd_toFinset _ _, ?_, ?_, ?_, fun i j => rfl⟩
    · rw [listProd_length, List.length_map, mapME_ok_length _ names parsed hp]
      simp [all_stat_names, Nat.mul_comm]
    · rfl
    · exact uniqueQ_sorted l
    · exact uniqueQ_nodup l

/-- Counterexample for C2 as stated: a file whose two series share
position 1 (a Pre series and a ranged-time series) yields six columns,
with every (position, statistic) label duplicated, although the claim
demands exactly distinct-positions times 3 = 3 columns and no
duplicated columns. -/
theorem c2_counterexample :
    (tracesDictInit ["Pre lesion/Pos001_S001".toList,
        "0h to 1h x/Pos001_S001".toList]).map StatTable.cols
      = .ok (listProd [1, 1] all_stat_names) ∧
    (listProd [1, 1] all_stat_names).length = 6 ∧
    ¬ (listProd [1, 1] all_stat_names).Nodup ∧
    ([1, 1] : List ℕ).dedup.length * 3 = 3 := by
  refine ⟨?_, by decide, by decide, by decide⟩
  have h1 : parse_series_name "Pre lesion/Pos001_S001".toList (1/2) = .ok (1, [-1]) :=
    parse_pre_eq _ 1 _ (by decide)
  have h2 := parse_time_eq "0h to 1h x/Pos001_S001".toList ⟨0, 0, 0⟩ ⟨1, 0, 0⟩ 1 (1/2)
    (by decide)
  have hceil : ⌈(qVal ⟨1, 0, 0⟩ + (1/2) / 2 - qVal ⟨0, 0, 0⟩) / (1/2)⌉ = ((3 : ℕ) : ℤ) := by
    rw [show (qVal ⟨1, 0, 0⟩ + (1/2) / 2 - qVal ⟨0, 0, 0⟩) / (1/2) = (5/2 : ℚ) by
      norm_num [qVal]]
    rw [Int.ceil_eq_iff] <;> norm_num
  have harr := arangeQ_eval (qVal ⟨0, 0, 0⟩) (qVal ⟨1, 0, 0⟩ + (1/2) / 2) (1/2) 3 hceil
  rw [show List.range 3 = [0, 1, 2] from rfl] at harr
  have harr2 : arangeQ (qVal ⟨0, 0, 0⟩) (qVal ⟨1, 0, 0⟩ + (1/2) / 2) (1/2)
      = [0, 1/2, 1] := by
    rw [harr]
    norm_num [qVal]
  rw [harr2] at h2
  have hp : mapME (fun n => parse_series_name n (1/2))
      ["Pre lesion/Pos001_S001".toList, "0h to 1h x/Pos001_S001".toList]
      = .ok [(1, [-1]), (1, [0, 1/2, 1])] := by
    simp only [mapME]
    rw [h1, h2]
  have hmo : mapMo List.head?
      (([(1, [(-1 : ℚ)]), (1, [0, 1/2, 1])]).map (fun pt => pt.2)) = some [-1, 0] := by
    simp [mapMo]
  unfold tracesDictInit
  rw [hp, exbind_ok, timesF, if_neg (by simp), hmo, exbind_ok]
  rfl

/-- Witness for C2 at a one-series file: three columns for position 8,
cells not-a-number. -/
theorem c2_table_amended_witness :
    (tracesDictInit ["Pre lesion 2x/Pos008_S001".toList]).map StatTable.cols
      = .ok (listProd [8] all_stat_names) ∧
    (listProd [8] all_stat_names).length = 3 * 1 ∧
    (tracesDictInit ["Pre lesion 2x/Pos008_S001".toList]).map
      (fun t => t.cell 0 0) = .ok none := by
  have h1 : parse_series_name "Pre lesion 2x/Pos008_S001".toList (1/2) = .ok (8, [-1]) :=
    parse_pre_eq _ 8 _ (by decide)
  have hp : mapME (fun n => parse_series_name n (1/2))
      ["Pre lesion 2x/Pos008_S001".toList] = .ok [(8, [-1])] := by
    simp only [mapME]
    rw [h1]
  have ht : tracesDictInit ["Pre lesion 2x/Pos008_S001".toList]
      = .ok ⟨uniqueQ (((uniqueIdx [-1]).map
            (fun i => ([[(-1 : ℚ)]]).getD i [])).flatten),
          listProd [8] all_stat_names, fun _ _ => none⟩ := by
    unfold tracesDictInit
    rw [hp, exbind_ok, timesF, if_neg (by simp),
        show mapMo List.head? (([(8, [(-1 : ℚ)])]).map (fun pt => pt.2))
          = some [-1] by simp [mapMo], exbind_ok]
    rfl
  have h := c2_table_amended ["Pre lesion 2x/Pos008_S001".toList] [(8, [-1])] hp _ ht
  refine ⟨?_, ?_, ?_⟩
  · rw [ht]
    rfl
  · have h2 := h.2.1
    rw [h.1] at h2
    simpa using h2
  · rw [ht]
    rfl
